import Mathlib

/-! # Verification of the frontrun-bot trade-mirroring core

Shallow embedding of the TypeScript sources:

* the trade monitor (`TradeMonitorService`: per-activity filtering, dedup
  cache, watermarks, bounded cache cleanup);
* the sizing engine `computeProportionalSizing` (modelled from the spec,
  since `src/config/copy-strategy.ts` itself is not among the provided
  sources — only its unit tests and its caller are);
* the order executor `postOrder` (slippage and price protection, bounded
  fill-or-kill loop);
* the `CircuitBreaker` state machine;
* `retryWithBackoff`.

JavaScript numbers are modelled as rationals (or as `Option ℚ` where
non-finite values matter), epoch times as integers, and every network
interaction as an explicit oracle mapping the index of the call to the
response observed.  Async control flow is sequentialized exactly as the
single-threaded event loop runs it.
-/

/-! ## Trade monitor (TradeMonitorService) -/

/-- Timestamp of a feed activity record.  The feed normally delivers a
numeric epoch-seconds value, but the code also accepts a date string; a date
string is embedded by the epoch milliseconds it denotes, so that
`new Date(s).getTime()` is `epochMillis`. -/
inductive ActivityTimestamp where
  | epochSeconds (n : ℤ)
  | dateString (epochMillis : ℤ)
deriving DecidableEq, Repr

/-- `typeof activity.timestamp === 'number' ? activity.timestamp :
Math.floor(new Date(activity.timestamp).getTime() / 1000)` — `Math.floor`
is floor division, hence `Int.fdiv`. -/
def normalizeTimestamp : ActivityTimestamp → ℤ
  | .epochSeconds n => n
  | .dateString ms => Int.fdiv ms 1000

/-- The `ActivityResponse` record shape of the external activity feed. -/
structure ActivityResponse where
  type : String
  timestamp : ActivityTimestamp
  conditionId : String
  asset : String
  size : ℚ
  usdcSize : ℚ
  price : ℚ
  side : String
  outcomeIndex : ℤ
  transactionHash : String
deriving DecidableEq, Repr

/-- The normalized `TradeSignal` handed to the consumer callback. -/
structure TradeSignal where
  trader : String
  marketId : String
  outcome : String
  side : String
  sizeUsd : ℚ
  price : ℚ
  timestamp : ℤ
deriving DecidableEq, Repr

/-- The monitor's mutable state: the dedup cache `processedHashes`
(a JS `Set`, kept in insertion order) and the per-trader watermark map
`lastFetchTime`. -/
structure MonitorState where
  processedHashes : List String
  lastFetchTime : List (String × ℤ)
deriving DecidableEq, Repr

/-- `this.lastFetchTime.get(trader) || 0`. -/
def lookupTime (m : List (String × ℤ)) (trader : String) : ℤ :=
  match m.find? (fun p => p.1 == trader) with
  | some p => p.2
  | none => 0

/-- `Map.set`: replace any previous binding of `k`. -/
def mapSet (m : List (String × ℤ)) (k : String) (v : ℤ) : List (String × ℤ) :=
  (k, v) :: m.filter (fun p => p.1 != k)

/-- `Set.add`: appends at the end of the insertion order, no-op when the
element is already present. -/
def addHash (hashes : List String) (h : String) : List String :=
  if h ∈ hashes then hashes else hashes ++ [h]

def MAX_HASH_CACHE_SIZE : ℕ := 10000

def CLEANUP_BATCH_SIZE : ℕ := 5000

/-- `cleanupHashCache`: when the dedup cache exceeds
`MAX_HASH_CACHE_SIZE`, delete the oldest `CLEANUP_BATCH_SIZE` entries
(`Array.from(set).slice(0, CLEANUP_BATCH_SIZE)` is the oldest prefix in
insertion order). -/
def cleanupHashCache (hashes : List String) : List String :=
  if MAX_HASH_CACHE_SIZE < hashes.length then hashes.drop CLEANUP_BATCH_SIZE
  else hashes

/-- One iteration of the `for (const activity of activities)` body of
`fetchTraderActivities`, up to (but not including) the consumer callback:
`none` when the activity is skipped by one of the four filters, otherwise
the updated monitor state (hash recorded, watermark advanced) and the
`TradeSignal` that is passed to the consumer. -/
def processActivity (trader : String) (cutoffTime : ℤ) (st : MonitorState)
    (a : ActivityResponse) : Option (MonitorState × TradeSignal) :=
  if a.type ≠ "TRADE" then none
  else
    let activityTime := normalizeTimestamp a.timestamp
    if activityTime < cutoffTime then none
    else if a.transactionHash ∈ st.processedHashes then none
    else
      let lastTime := lookupTime st.lastFetchTime trader
      if activityTime ≤ lastTime then none
      else
        let signal : TradeSignal :=
          { trader := trader
            marketId := a.conditionId
            outcome := if a.outcomeIndex = 0 then "YES" else "NO"
            side := a.side.toUpper
            sizeUsd := if a.usdcSize = 0 then a.size * a.price else a.usdcSize
            price := a.price
            timestamp := activityTime * 1000 }
        some
          ( { processedHashes := addHash st.processedHashes a.transactionHash
              lastFetchTime := mapSet st.lastFetchTime trader (max lastTime activityTime) },
            signal )

/-- One consumer invocation recorded by the model: which trader's fetch
forwarded which activity (under which window cutoff) as which signal. -/
structure Forwarded where
  trader : String
  cutoffTime : ℤ
  activity : ActivityResponse
  signal : TradeSignal
deriving DecidableEq, Repr

/-- Result of one `fetchTraderActivities` call: final monitor state, the
running count of consumer invocations, the forwarded activities (in order),
and whether the iteration was aborted by a consumer exception. -/
structure FetchResult where
  st : MonitorState
  cnt : ℕ
  log : List Forwarded
  aborted : Bool
deriving DecidableEq, Repr

/-- `fetchTraderActivities` for one trader and one tick.  `consumerOk n`
tells whether the `n`-th consumer invocation of the run resolves (`true`)
or rejects (`false`); a rejection is caught by the surrounding `try`, which
abandons the rest of this trader's activity list — but only after the hash
was recorded and the watermark advanced, which happen before the `await`. -/
def fetchTraderActivities (consumerOk : ℕ → Bool) (trader : String) (cutoffTime : ℤ) :
    MonitorState → ℕ → List ActivityResponse → FetchResult
  | st, cnt, [] => ⟨st, cnt, [], false⟩
  | st, cnt, a :: rest =>
    match processActivity trader cutoffTime st a with
    | none => fetchTraderActivities consumerOk trader cutoffTime st cnt rest
    | some (st', sig) =>
      if consumerOk cnt then
        let r := fetchTraderActivities consumerOk trader cutoffTime st' (cnt + 1) rest
        ⟨r.st, r.cnt, ⟨trader, cutoffTime, a, sig⟩ :: r.log, r.aborted⟩
      else ⟨st', cnt + 1, [⟨trader, cutoffTime, a, sig⟩], true⟩

/-- A step of a monitor run: one per-trader fetch (with the activity list
the feed returned and the tick's window cutoff `now − aggregationWindowSeconds`),
or the `cleanupHashCache` call that ends a tick. -/
inductive MonitorStep where
  | fetch (trader : String) (cutoffTime : ℤ) (activities : List ActivityResponse)
  | cleanup
deriving DecidableEq, Repr

/-- Result of a monitor run: final state, consumer-invocation count and the
concatenated forwarding log. -/
structure RunResult where
  st : MonitorState
  cnt : ℕ
  log : List Forwarded
deriving DecidableEq, Repr

/-- A monitor run: any sequence of per-trader fetches and cleanups, covering
arbitrarily many ticks and traders. -/
def runMonitor (consumerOk : ℕ → Bool) :
    MonitorState → ℕ → List MonitorStep → RunResult
  | st, cnt, [] => ⟨st, cnt, []⟩
  | st, cnt, .fetch tr cut acts :: rest =>
    let f := fetchTraderActivities consumerOk tr cut st cnt acts
    let r := runMonitor consumerOk f.st f.cnt rest
    ⟨r.st, r.cnt, f.log ++ r.log⟩
  | st, cnt, .cleanup :: rest =>
    runMonitor consumerOk ⟨cleanupHashCache st.processedHashes, st.lastFetchTime⟩ cnt rest

/-- `h` stays resident during the run: every cleanup that finds `h` in the
dedup cache keeps it there (it is not among the evicted oldest batch). -/
def residentDuring (h : String) (consumerOk : ℕ → Bool) :
    MonitorState → ℕ → List MonitorStep → Bool
  | _, _, [] => true
  | st, cnt, .fetch tr cut acts :: rest =>
    let f := fetchTraderActivities consumerOk tr cut st cnt acts
    residentDuring h consumerOk f.st f.cnt rest
  | st, cnt, .cleanup :: rest =>
    decide (h ∈ st.processedHashes → h ∈ cleanupHashCache st.processedHashes) &&
      residentDuring h consumerOk
        ⟨cleanupHashCache st.processedHashes, st.lastFetchTime⟩ cnt rest

/-! ## Sizing engine (computeProportionalSizing) -/

/-- A JavaScript number as the sizing engine sees it: `some q` is the finite
value `q`, `none` stands for any non-finite value (NaN or ±Infinity). -/
abbrev JsNumber := Option ℚ

/-- `Math.max(0, x)` (non-finite propagates). -/
def jsMax0 : JsNumber → JsNumber
  | none => none
  | some q => some (max 0 q)

def jsAdd : JsNumber → JsNumber → JsNumber
  | some a, some b => some (a + b)
  | _, _ => none

def jsMul : JsNumber → JsNumber → JsNumber
  | some a, some b => some (a * b)
  | _, _ => none

/-- JS division: a zero divisor yields ±Infinity or NaN, i.e. non-finite. -/
def jsDiv : JsNumber → JsNumber → JsNumber
  | some a, some b => if b = 0 then none else some (a / b)
  | _, _ => none

structure CopyInputs where
  yourUsdBalance : JsNumber
  traderUsdBalance : JsNumber
  traderTradeUsd : JsNumber
  multiplier : JsNumber
deriving DecidableEq, Repr

structure SizingResult where
  targetUsdSize : JsNumber
  ratio : JsNumber
deriving DecidableEq, Repr

/-- The configured minimum trade size (1 USD). -/
def MIN_TRADE_USD : ℚ := 1

/-- Modelled from the spec: the sizing engine lives in
src/config/copy-strategy.ts, which is not among the provided source files
(only its unit tests and its caller `TradeExecutorService.copyTrade` are).
Following spec section 4.2 word for word: floor the two balances at 0;
`ratio = B_f / (B_t + S_t)` with ratio 0 when the denominator is 0;
`target = S_t × ratio × M`; if the target is below the 1 USD minimum or is
not a finite number, return the minimum with the ratio unchanged.  The
model agrees with every case of the in-repo unit-test suite. -/
def computeProportionalSizing (inp : CopyInputs) : SizingResult :=
  let bf := jsMax0 inp.yourUsdBalance
  let bt := jsMax0 inp.traderUsdBalance
  let denom := jsAdd bt inp.traderTradeUsd
  let ratio : JsNumber := if denom = some 0 then some 0 else jsDiv bf denom
  let target := jsMul (jsMul inp.traderTradeUsd ratio) inp.multiplier
  let targetUsdSize : JsNumber :=
    match target with
    | none => some MIN_TRADE_USD
    | some t => if t < MIN_TRADE_USD then some MIN_TRADE_USD else some t
  { targetUsdSize := targetUsdSize, ratio := ratio }

/-! ## Order executor (postOrder) -/

/-- One price level of an order-book side (price and size already parsed
from their string transport form). -/
structure BookLevel where
  price : ℚ
  size : ℚ
deriving DecidableEq, Repr

inductive OrderError where
  | emptyBook
  | slippageExceeded
  | priceProtection
  | submissionError
deriving DecidableEq, Repr

/-- Outcome of one `createMarketOrder` + `postOrder(FOK)` round trip:
the response had `success: true`, had `success: false`, or the call threw. -/
inductive SubmitOutcome where
  | success
  | rejected
  | error
deriving DecidableEq, Repr

/-- The environment the order executor interacts with: `book n` is the side
of the order book (asks for BUY, bids for SELL) returned by the `n`-th
`getOrderBook` call of this `postOrder` run, `submit n` the outcome of the
`n`-th submission attempt. -/
structure OrderEnv where
  book : ℕ → List BookLevel
  submit : ℕ → SubmitOutcome

/-- A fill-or-kill submission as the model records it. -/
structure Submission where
  isBuy : Bool
  price : ℚ
  amount : ℚ
deriving DecidableEq, Repr

/-- The slippage block of `postOrder` (the `if (expectedPrice)` guard is JS
truthiness, so an expected price of 0 skips the check).  Returns whether the
slippage warning was logged, and the check's verdict. -/
def slippageCheck (isBuy : Bool) (bestPrice : ℚ) (expectedPrice : Option ℚ)
    (maxSlippagePercent : ℚ) : Bool × Except OrderError Unit :=
  match expectedPrice with
  | none => (false, .ok ())
  | some expected =>
    if expected = 0 then (false, .ok ())
    else
      let slippage :=
        (if isBuy then (bestPrice - expected) / expected
         else (expected - bestPrice) / expected) * 100
      if 0 < slippage then
        (true, if maxSlippagePercent < slippage then .error .slippageExceeded else .ok ())
      else (false, .ok ())

/-- The absolute price-protection block of `postOrder`
(`if (maxAcceptablePrice && ...)`, again JS truthiness). -/
def priceCheck (isBuy : Bool) (bestPrice : ℚ) (maxAcceptablePrice : Option ℚ) :
    Except OrderError Unit :=
  match maxAcceptablePrice with
  | none => .ok ()
  | some m =>
    if m ≠ 0 ∧ ((isBuy ∧ m < bestPrice) ∨ (¬isBuy ∧ bestPrice < m)) then
      .error .priceProtection
    else .ok ()

/-- The `while (remaining > 0.01 && retryCount < maxRetries)` fill loop of
`postOrder`, with `maxRetries = 3` hardcoded as in the source.  `fuel`
bounds the number of iterations the model unrolls; `none` means the loop
was still running when the fuel ran out, so the loop terminates exactly
when some fuel suffices.  `fetchIdx` / `submitIdx` index into the
environment oracles, `acc` accumulates the submissions issued so far. -/
def fillLoop (env : OrderEnv) (isBuy : Bool) :
    ℕ → ℚ → ℕ → ℕ → ℕ → List Submission → Option (Except OrderError Unit × List Submission)
  | 0, _, _, _, _, _ => none
  | fuel + 1, remaining, retryCount, fetchIdx, submitIdx, acc =>
    if 1 / 100 < remaining ∧ retryCount < 3 then
      match env.book fetchIdx with
      | [] => some (.ok (), acc)
      | level :: _ =>
        let levelValue := level.size * level.price
        let orderValue := min remaining levelValue
        let orderSize := orderValue / level.price
        let sub : Submission := ⟨isBuy, level.price, orderSize⟩
        match env.submit submitIdx with
        | .success =>
          fillLoop env isBuy fuel (remaining - orderValue) 0 (fetchIdx + 1)
            (submitIdx + 1) (acc ++ [sub])
        | .rejected =>
          fillLoop env isBuy fuel remaining (retryCount + 1) (fetchIdx + 1)
            (submitIdx + 1) (acc ++ [sub])
        | .error =>
          if 3 ≤ retryCount + 1 then some (.error .submissionError, acc ++ [sub])
          else
            fillLoop env isBuy fuel remaining (retryCount + 1) (fetchIdx + 1)
              (submitIdx + 1) (acc ++ [sub])
    else some (.ok (), acc)

/-- The fill loop terminates from the given state. -/
def fillLoopTerminates (env : OrderEnv) (isBuy : Bool) (remaining : ℚ)
    (retryCount fetchIdx submitIdx : ℕ) (acc : List Submission) : Prop :=
  ∃ fuel, (fillLoop env isBuy fuel remaining retryCount fetchIdx submitIdx acc).isSome

/-- Inputs of `postOrder` relevant after market/token resolution (line 40
onward of the source): the chosen side, the notional, the optional
reference price, the slippage ceiling (`maxSlippagePercent = 2.0` by
default) and the optional absolute price bound. -/
structure PostOrderInput where
  isBuy : Bool
  sizeUsd : ℚ
  expectedPrice : Option ℚ
  maxSlippagePercent : ℚ
  maxAcceptablePrice : Option ℚ
deriving DecidableEq, Repr

def defaultMaxSlippagePercent : ℚ := 2

/-- `postOrder` after market resolution: fetch the book (oracle call 0),
fail on an empty side, run the slippage and price-protection checks against
the best price, then enter the fill loop (whose first re-fetch is oracle
call 1).  The returned list is the trace of submissions issued — empty
whenever a pre-loop check fails. -/
def postOrder (inp : PostOrderInput) (env : OrderEnv) (fuel : ℕ) :
    Option (Except OrderError Unit × List Submission) :=
  match env.book 0 with
  | [] => some (.error .emptyBook, [])
  | level :: _ =>
    let bestPrice := level.price
    match (slippageCheck inp.isBuy bestPrice inp.expectedPrice inp.maxSlippagePercent).2 with
    | .error e => some (.error e, [])
    | .ok _ =>
      match priceCheck inp.isBuy bestPrice inp.maxAcceptablePrice with
      | .error e => some (.error e, [])
      | .ok _ => fillLoop env inp.isBuy fuel inp.sizeUsd 0 1 0 []

/-! ## Circuit breaker (CircuitBreaker) -/

inductive CircuitBreakerState where
  | CLOSED
  | OPEN
  | HALF_OPEN
deriving DecidableEq, Repr

structure CircuitBreakerOptions where
  failureThreshold : ℕ
  successThreshold : ℕ
  timeout : ℤ
deriving DecidableEq, Repr

structure CircuitBreaker where
  state : CircuitBreakerState
  failureCount : ℕ
  successCount : ℕ
  nextAttempt : ℤ
deriving DecidableEq, Repr

/-- `onSuccess`: zero the failure counter; in HALF_OPEN, count successes and
close once `successThreshold` is reached. -/
def CircuitBreaker.onSuccess (opts : CircuitBreakerOptions) (cb : CircuitBreaker) :
    CircuitBreaker :=
  let cb1 := { cb with failureCount := 0 }
  if cb1.state = .HALF_OPEN then
    let s := cb1.successCount + 1
    if opts.successThreshold ≤ s then { cb1 with state := .CLOSED, successCount := 0 }
    else { cb1 with successCount := s }
  else cb1

/-- `onFailure`: bump the failure counter; a HALF_OPEN failure reopens at
once, otherwise reaching `failureThreshold` opens the circuit; opening sets
`nextAttempt = now + timeout`. -/
def CircuitBreaker.onFailure (opts : CircuitBreakerOptions) (now : ℤ) (cb : CircuitBreaker) :
    CircuitBreaker :=
  let f := cb.failureCount + 1
  if cb.state = .HALF_OPEN then
    { cb with
      state := .OPEN, failureCount := f, nextAttempt := now + opts.timeout,
      successCount := 0 }
  else if opts.failureThreshold ≤ f then
    { cb with state := .OPEN, failureCount := f, nextAttempt := now + opts.timeout }
  else { cb with failureCount := f }

/-- What one `execute` call did: whether it was rejected by the open-circuit
gate (wrapped operation not invoked), whether and in which breaker state the
operation ran, whether its failure was rethrown, and the breaker afterwards. -/
structure ExecOutcome where
  blockedOpen : Bool
  invoked : Bool
  stateAtCall : Option CircuitBreakerState
  opErrorRethrown : Bool
  cb : CircuitBreaker
deriving DecidableEq, Repr

/-- `execute` at time `now` for an operation that, if invoked, succeeds iff
`opOk`.  While OPEN before `nextAttempt` the call throws the dedicated
circuit-open error without touching the operation; once `now ≥ nextAttempt`
the breaker optimistically flips to HALF_OPEN (zeroing the success counter)
before the operation runs. -/
def CircuitBreaker.execute (opts : CircuitBreakerOptions) (now : ℤ) (opOk : Bool)
    (cb : CircuitBreaker) : ExecOutcome :=
  let gate : Option CircuitBreaker :=
    if cb.state = .OPEN then
      if now < cb.nextAttempt then none
      else some { cb with state := .HALF_OPEN, successCount := 0 }
    else some cb
  match gate with
  | none => ⟨true, false, none, false, cb⟩
  | some cb1 =>
    if opOk then ⟨false, true, some cb1.state, false, CircuitBreaker.onSuccess opts cb1⟩
    else ⟨false, true, some cb1.state, true, CircuitBreaker.onFailure opts now cb1⟩

/-- The breaker after one failing `execute` call. -/
def failStep (opts : CircuitBreakerOptions) (now : ℤ) (cb : CircuitBreaker) :
    CircuitBreaker :=
  (CircuitBreaker.execute opts now false cb).cb

/-! ## Retry with backoff (retryWithBackoff) -/

structure RetryOptions where
  maxRetries : ℕ
  initialDelayMs : ℚ
  maxDelayMs : ℚ
  backoffMultiplier : ℚ
deriving DecidableEq, Repr

/-- What a `retryWithBackoff` run did: the value returned or error rethrown,
how many times the wrapped operation was invoked, and the delays slept
between attempts (in order). -/
structure RetryResult (E A : Type) where
  outcome : Except E A
  invocations : ℕ
  delays : List ℚ
deriving Repr

/-- The `for (let attempt = 0; attempt <= maxRetries; attempt++)` loop of
`retryWithBackoff`: `op n` is the outcome of the `n`-th invocation of the
wrapped operation, `remaining` the retries still allowed (no sleep after the
last attempt; the delay is multiplied by `backoffMultiplier` and capped at
`maxDelayMs` after each sleep). -/
def retryAux {E A : Type} (op : ℕ → Except E A) (mult cap : ℚ) :
    ℚ → ℕ → ℕ → RetryResult E A
  | _, attempt, 0 =>
    match op attempt with
    | .ok a => ⟨.ok a, 1, []⟩
    | .error e => ⟨.error e, 1, []⟩
  | delay, attempt, remaining + 1 =>
    match op attempt with
    | .ok a => ⟨.ok a, 1, []⟩
    | .error _ =>
      let r := retryAux op mult cap (min (delay * mult) cap) (attempt + 1) remaining
      ⟨r.outcome, r.invocations + 1, delay :: r.delays⟩

def retryWithBackoff {E A : Type} (op : ℕ → Except E A) (opts : RetryOptions) :
    RetryResult E A :=
  retryAux op opts.backoffMultiplier opts.maxDelayMs opts.initialDelayMs 0 opts.maxRetries

/-- The delay schedule the spec describes (stated from the spec's words, to
be compared with the schedule the code produces): starts at `d`, each
subsequent delay is the previous one times `mult`, capped at `cap`. -/
def expectedBackoffDelays (mult cap : ℚ) : ℚ → ℕ → List ℚ
  | _, 0 => []
  | d, n + 1 => d :: expectedBackoffDelays mult cap (min (d * mult) cap) n

/-! ## Claim C2: cache cleanup bound -/

/-- Counterexample to C2 as stated: a dedup cache of 15001 entries (e.g.
15001 distinct hashes accumulated during one tick — cleanup only runs once,
at the end of a tick, so the cache can grow arbitrarily within a tick)
exceeds `MAX_HASH_CACHE_SIZE`, yet after `cleanupHashCache` its size is
15001 − 5000 = 10001, still above `MAX_HASH_CACHE_SIZE`. -/
def bigHashCache : List String := (List.range 15001).map (fun n => toString n)

/-- C2 (counterexample): the post-cleanup size of `bigHashCache` exceeds
`MAX_HASH_CACHE_SIZE`, refuting "after cleanup the cache size never exceeds
MAX_HASH_CACHE_SIZE". -/
theorem c2_counterexample :
    MAX_HASH_CACHE_SIZE < bigHashCache.length ∧
    MAX_HASH_CACHE_SIZE < (cleanupHashCache bigHashCache).length := by
  have hlen : bigHashCache.length = 15001 := by
    simp [bigHashCache]
  have hgt : MAX_HASH_CACHE_SIZE < bigHashCache.length := by
    rw [hlen]; norm_num [MAX_HASH_CACHE_SIZE]
  refine ⟨hgt, ?_⟩
  have hdrop : cleanupHashCache bigHashCache = bigHashCache.drop CLEANUP_BATCH_SIZE := by
    rw [cleanupHashCache, if_pos hgt]
  rw [hdrop, List.length_drop, hlen]
  norm_num [MAX_HASH_CACHE_SIZE, CLEANUP_BATCH_SIZE]

/-- C2 (amended): whenever the dedup cache exceeds `MAX_HASH_CACHE_SIZE`
(10000), cleanup evicts exactly the oldest `CLEANUP_BATCH_SIZE` (5000)
entries in one bulk batch; the post-cleanup size is below the maximum
provided the pre-cleanup size was at most
`MAX_HASH_CACHE_SIZE + CLEANUP_BATCH_SIZE` (which a single eviction cannot
guarantee in general — see `c2_counterexample`); a cache within the bound is
left untouched. -/
theorem c2_cache_cleanup_bound (hashes : List String) :
    (MAX_HASH_CACHE_SIZE < hashes.length →
      cleanupHashCache hashes = hashes.drop CLEANUP_BATCH_SIZE ∧
      (hashes.length ≤ MAX_HASH_CACHE_SIZE + CLEANUP_BATCH_SIZE →
        (cleanupHashCache hashes).length ≤ MAX_HASH_CACHE_SIZE)) ∧
    (hashes.length ≤ MAX_HASH_CACHE_SIZE → cleanupHashCache hashes = hashes) := by
  constructor
  · intro hgt
    have hdrop : cleanupHashCache hashes = hashes.drop CLEANUP_BATCH_SIZE := by
      rw [cleanupHashCache, if_pos hgt]
    refine ⟨hdrop, fun hle => ?_⟩
    rw [hdrop, List.length_drop]
    simp only [MAX_HASH_CACHE_SIZE, CLEANUP_BATCH_SIZE] at hle ⊢
    omega
  · intro hle
    rw [cleanupHashCache, if_neg (by omega)]

/-- Witness for `c2_cache_cleanup_bound` at a concrete 10001-entry cache. -/
theorem c2_cache_cleanup_bound_witness :
    (cleanupHashCache ((List.range 10001).map (fun n => toString n))).length ≤
      MAX_HASH_CACHE_SIZE := by
  have hlen : ((List.range 10001).map (fun n => toString n)).length = 10001 := by
    simp
  exact ((c2_cache_cleanup_bound ((List.range 10001).map (fun n => toString n))).1
    (by rw [hlen]; norm_num [MAX_HASH_CACHE_SIZE])).2
    (by rw [hlen]; norm_num [MAX_HASH_CACHE_SIZE, CLEANUP_BATCH_SIZE])

/-! ## Claim C3: sizing engine -/

/-- C3: `computeProportionalSizing` is total (it is a Lean function, hence
pure and non-raising); for every input — negative, zero or non-finite —
the returned `targetUsdSize` is a finite value of at least the 1 USD
minimum; and on (1000, 1000, 100, 1) the ratio is 10/11 ≈ 0.909 and the
target 1000/11 ≈ 90.9. -/
theorem c3_sizing_total_floor_and_example :
    (∀ inp : CopyInputs, ∃ t : ℚ,
        (computeProportionalSizing inp).targetUsdSize = some t ∧ MIN_TRADE_USD ≤ t) ∧
    computeProportionalSizing ⟨some 1000, some 1000, some 100, some 1⟩ =
      ⟨some (1000 / 11), some (10 / 11)⟩ ∧
    |(10 : ℚ) / 11 - 909 / 1000| ≤ 1 / 1000 ∧
    |(1000 : ℚ) / 11 - 909 / 10| ≤ 1 / 100 := by
  refine ⟨fun inp => ?_, by
    norm_num [computeProportionalSizing, jsMax0, jsAdd, jsDiv, jsMul, MIN_TRADE_USD,
      SizingResult.mk.injEq], by rw [abs_le]; constructor <;> norm_num, by
    rw [abs_le]; constructor <;> norm_num⟩
  simp only [computeProportionalSizing]
  rcases htarget : jsMul
      (jsMul inp.traderTradeUsd
        (if jsAdd (jsMax0 inp.traderUsdBalance) inp.traderTradeUsd = some 0 then some 0
         else jsDiv (jsMax0 inp.yourUsdBalance)
           (jsAdd (jsMax0 inp.traderUsdBalance) inp.traderTradeUsd)))
      inp.multiplier with _ | t
  · exact ⟨MIN_TRADE_USD, rfl, le_refl _⟩
  · by_cases hlt : t < MIN_TRADE_USD
    · exact ⟨MIN_TRADE_USD, by simp [hlt], le_refl _⟩
    · exact ⟨t, by simp [hlt], le_of_not_lt hlt⟩

/-! ## Claim C4: slippage protection -/

/-- C4: with a (nonzero) reference price supplied, a non-negative slippage
ceiling, and a non-empty selected book side, directional slippage is the
percentage `(best − expected)/expected` for BUY and `(expected − best)/expected`
for SELL; whenever it is positive the warning flag is raised, and whenever it
exceeds `maxSlippagePercent` the whole `postOrder` run fails with the
slippage error having issued no submission at all. -/
theorem c4_slippage_protection (inp : PostOrderInput) (env : OrderEnv) (fuel : ℕ)
    (p : ℚ) (lvl : BookLevel) (rest : List BookLevel)
    (hexp : inp.expectedPrice = some p) (hp : p ≠ 0)
    (hceil : 0 ≤ inp.maxSlippagePercent)
    (hbook : env.book 0 = lvl :: rest) :
    (0 < (if inp.isBuy then (lvl.price - p) / p else (p - lvl.price) / p) * 100 →
      (slippageCheck inp.isBuy lvl.price inp.expectedPrice inp.maxSlippagePercent).1 = true) ∧
    (inp.maxSlippagePercent <
        (if inp.isBuy then (lvl.price - p) / p else (p - lvl.price) / p) * 100 →
      postOrder inp env fuel = some (.error .slippageExceeded, [])) := by
  constructor
  · intro hpos
    rw [hexp]
    simp only [slippageCheck, if_neg hp, if_pos hpos]
  · intro hgt
    have hpos : 0 < (if inp.isBuy then (lvl.price - p) / p else (p - lvl.price) / p) * 100 :=
      lt_of_le_of_lt hceil hgt
    have hcheck :
        (slippageCheck inp.isBuy lvl.price inp.expectedPrice inp.maxSlippagePercent).2 =
          .error .slippageExceeded := by
      rw [hexp]
      simp only [slippageCheck, if_neg hp, if_pos hpos, if_pos hgt]
    rw [postOrder, hbook]
    simp only [hcheck]

/-- Environment for the C4 witness: best ask 0.55, all submissions would
succeed (they are never reached). -/
def envC4 : OrderEnv := ⟨fun _ => [⟨11 / 20, 100⟩], fun _ => .success⟩

/-- Witness for `c4_slippage_protection`: a BUY against best price 0.55 with
expected price 0.50 has slippage 10% > the 2% default ceiling, and the whole
operation fails with the slippage error before any order is submitted. -/
theorem c4_slippage_protection_witness :
    postOrder ⟨true, 100, some (1 / 2), defaultMaxSlippagePercent, none⟩ envC4 5 =
      some (.error .slippageExceeded, []) := by
  have h := c4_slippage_protection ⟨true, 100, some (1 / 2), defaultMaxSlippagePercent, none⟩
    envC4 5 (1 / 2) ⟨11 / 20, 100⟩ [] rfl (by norm_num)
    (by norm_num [defaultMaxSlippagePercent]) rfl
  exact h.2 (by norm_num [defaultMaxSlippagePercent])

/-! ## Claim C5: circuit breaker transitions -/

lemma failStep_closed_iter (opts : CircuitBreakerOptions) (now na : ℤ) :
    ∀ n, n < opts.failureThreshold →
      (failStep opts now)^[n] ⟨.CLOSED, 0, 0, na⟩ = ⟨.CLOSED, n, 0, na⟩ := by
  intro n
  induction n with
  | zero => intro _; rfl
  | succ k ih =>
    intro hn
    rw [Function.iterate_succ_apply', ih (Nat.lt_of_succ_lt hn)]
    have hnotle : ¬ opts.failureThreshold ≤ k + 1 := by omega
    simp [failStep, CircuitBreaker.execute, CircuitBreaker.onFailure, hnotle]

/-- C5: starting CLOSED with a zeroed failure counter, the breaker stays
CLOSED (counting the consecutive failures) through the first
`failureThreshold − 1` failing calls and is OPEN exactly after the
`failureThreshold`-th; a success while CLOSED only resets the failure
counter; while OPEN before `nextAttempt`, `execute` rejects with the
circuit-open error without invoking the wrapped operation and without
changing the breaker; once `now ≥ nextAttempt` the call is admitted and the
operation runs with the breaker already flipped to HALF_OPEN. -/
theorem c5_circuit_breaker (opts : CircuitBreakerOptions) (now na : ℤ) (opOk : Bool)
    (cb : CircuitBreaker) (ht : 1 ≤ opts.failureThreshold) :
    (∀ n, n < opts.failureThreshold →
      (failStep opts now)^[n] ⟨.CLOSED, 0, 0, na⟩ = ⟨.CLOSED, n, 0, na⟩) ∧
    ((failStep opts now)^[opts.failureThreshold] ⟨.CLOSED, 0, 0, na⟩).state = .OPEN ∧
    (cb.state = .CLOSED →
      (CircuitBreaker.execute opts now true cb).cb = { cb with failureCount := 0 }) ∧
    (cb.state = .OPEN → now < cb.nextAttempt →
      CircuitBreaker.execute opts now opOk cb = ⟨true, false, none, false, cb⟩) ∧
    (cb.state = .OPEN → cb.nextAttempt ≤ now →
      (CircuitBreaker.execute opts now opOk cb).invoked = true ∧
      (CircuitBreaker.execute opts now opOk cb).stateAtCall = some .HALF_OPEN) := by
  refine ⟨failStep_closed_iter opts now na, ?_, ?_, ?_, ?_⟩
  · obtain ⟨m, hm⟩ : ∃ m, opts.failureThreshold = m + 1 := ⟨opts.failureThreshold - 1, by omega⟩
    rw [hm, Function.iterate_succ_apply',
      failStep_closed_iter opts now na m (by omega)]
    have hle : opts.failureThreshold ≤ m + 1 := by omega
    simp [failStep, CircuitBreaker.execute, CircuitBreaker.onFailure, hle]
  · intro hclosed
    have hnotopen : cb.state ≠ .OPEN := by rw [hclosed]; intro hc; cases hc
    simp [CircuitBreaker.execute, CircuitBreaker.onSuccess, hnotopen, hclosed]
  · intro hopen hlt
    simp [CircuitBreaker.execute, hopen, hlt]
  · intro hopen hge
    simp [CircuitBreaker.execute, hopen, not_lt_of_le hge]
    cases opOk <;> simp

/-- Witness for `c5_circuit_breaker` at `failureThreshold = 3`,
`successThreshold = 2`, `timeout = 60000`: three consecutive failures open
the breaker, and a blocked call at `now = 10` before `nextAttempt = 100`
leaves everything untouched. -/
theorem c5_circuit_breaker_witness :
    ((failStep ⟨3, 2, 60000⟩ 0)^[3] ⟨.CLOSED, 0, 0, 0⟩).state = .OPEN ∧
    CircuitBreaker.execute ⟨3, 2, 60000⟩ 10 true ⟨.OPEN, 3, 0, 100⟩ =
      ⟨true, false, none, false, ⟨.OPEN, 3, 0, 100⟩⟩ := by
  have h := c5_circuit_breaker ⟨3, 2, 60000⟩ 10 0 true ⟨.OPEN, 3, 0, 100⟩ (by norm_num)
  refine ⟨?_, h.2.2.2.1 rfl (by norm_num)⟩
  have h0 := c5_circuit_breaker ⟨3, 2, 60000⟩ 0 0 true ⟨.OPEN, 3, 0, 100⟩ (by norm_num)
  exact h0.2.1

/-! ## Claim C6: retry with backoff -/

lemma retryAux_invocations_pos {E A : Type} (op : ℕ → Except E A) (mult cap : ℚ) :
    ∀ remaining delay attempt,
      1 ≤ (retryAux op mult cap delay attempt remaining).invocations := by
  intro remaining
  cases remaining with
  | zero => intro d a; cases h : op a <;> simp [retryAux, h]
  | succ k => intro d a; cases h : op a <;> simp [retryAux, h]

lemma retryAux_invocations_le {E A : Type} (op : ℕ → Except E A) (mult cap : ℚ) :
    ∀ remaining delay attempt,
      (retryAux op mult cap delay attempt remaining).invocations ≤ remaining + 1 := by
  intro remaining
  induction remaining with
  | zero => intro d a; cases h : op a <;> simp [retryAux, h]
  | succ k ih =>
    intro d a
    cases h : op a with
    | ok v => simp [retryAux, h]
    | error e =>
      have := ih (min (d * mult) cap) (a + 1)
      simp only [retryAux, h]
      omega

lemma retryAux_first_success {E A : Type} (op : ℕ → Except E A) (mult cap : ℚ) :
    ∀ k remaining delay attempt v, k ≤ remaining →
      (∀ j, j < k → (op (attempt + j)).isOk = false) →
      op (attempt + k) = .ok v →
      (retryAux op mult cap delay attempt remaining).outcome = .ok v ∧
      (retryAux op mult cap delay attempt remaining).invocations = k + 1 := by
  intro k
  induction k with
  | zero =>
    intro remaining d a v _ _ hok
    rw [Nat.add_zero] at hok
    cases remaining <;> simp [retryAux, hok]
  | succ m ih =>
    intro remaining d a v hle hfail hok
    obtain ⟨r', rfl⟩ : ∃ r', remaining = r' + 1 := ⟨remaining - 1, by omega⟩
    have h0 : (op a).isOk = false := by
      have := hfail 0 (by omega); simpa using this
    obtain ⟨e, he⟩ : ∃ e, op a = .error e := by
      cases hh : op a with
      | ok v' => rw [hh] at h0; simp [Except.isOk, Except.toBool] at h0
      | error e => exact ⟨e, rfl⟩
    have hfail' : ∀ j, j < m → (op (a + 1 + j)).isOk = false := by
      intro j hj
      have := hfail (j + 1) (by omega)
      have harith : a + (j + 1) = a + 1 + j := by omega
      rwa [harith] at this
    have hok' : op (a + 1 + m) = .ok v := by
      have harith : a + (m + 1) = a + 1 + m := by omega
      rwa [harith] at hok
    have := ih r' (min (d * mult) cap) (a + 1) v (by omega) hfail' hok'
    simp only [retryAux, he]
    have h2 := this.2
    exact ⟨this.1, by omega⟩

lemma retryAux_delays {E A : Type} (op : ℕ → Except E A) (mult cap : ℚ) :
    ∀ remaining delay attempt,
      (retryAux op mult cap delay attempt remaining).delays =
        expectedBackoffDelays mult cap delay
          ((retryAux op mult cap delay attempt remaining).invocations - 1) := by
  intro remaining
  induction remaining with
  | zero => intro d a; cases h : op a <;> simp [retryAux, h, expectedBackoffDelays]
  | succ k ih =>
    intro d a
    cases h : op a with
    | ok v => simp [retryAux, h, expectedBackoffDelays]
    | error e =>
      have hpos := retryAux_invocations_pos op mult cap k (min (d * mult) cap) (a + 1)
      simp only [retryAux, h, Nat.add_sub_cancel]
      obtain ⟨m, hm⟩ : ∃ m,
          (retryAux op mult cap (min (d * mult) cap) (a + 1) k).invocations = m + 1 :=
        ⟨(retryAux op mult cap (min (d * mult) cap) (a + 1) k).invocations - 1, by omega⟩
      rw [hm, expectedBackoffDelays]
      have := ih (min (d * mult) cap) (a + 1)
      rw [hm, Nat.add_sub_cancel] at this
      rw [this]

lemma retryAux_all_fail {E A : Type} (op : ℕ → Except E A) (mult cap : ℚ) :
    ∀ remaining delay attempt,
      (∀ j, j ≤ remaining → (op (attempt + j)).isOk = false) →
      (retryAux op mult cap delay attempt remaining).outcome = op (attempt + remaining) := by
  intro remaining
  induction remaining with
  | zero =>
    intro d a hfail
    have h0 : (op a).isOk = false := by have := hfail 0 (by omega); simpa using this
    cases hh : op a with
    | ok v => rw [hh] at h0; simp [Except.isOk, Except.toBool] at h0
    | error e => simp [retryAux, hh]
  | succ k ih =>
    intro d a hfail
    have h0 : (op a).isOk = false := by have := hfail 0 (by omega); simpa using this
    cases hh : op a with
    | ok v => rw [hh] at h0; simp [Except.isOk, Except.toBool] at h0
    | error e =>
      have hfail' : ∀ j, j ≤ k → (op (a + 1 + j)).isOk = false := by
        intro j hj
        have := hfail (j + 1) (by omega)
        have harith : a + (j + 1) = a + 1 + j := by omega
        rwa [harith] at this
      have harith : a + 1 + k = a + (k + 1) := by omega
      simp only [retryAux, hh]
      rw [ih (min (d * mult) cap) (a + 1) hfail', harith]

/-- C6: `retryWithBackoff` invokes the operation at most `maxRetries + 1`
times; if the first success is at (0-based) attempt `i ≤ maxRetries` it
returns that success after exactly `i + 1` invocations; the slept delays
follow the schedule starting at `initialDelayMs`, multiplied by
`backoffMultiplier` and capped at `maxDelayMs` each retry; and when every
attempt fails the outcome is exactly the last attempt's error. -/
theorem c6_retry_with_backoff {E A : Type} (op : ℕ → Except E A) (opts : RetryOptions) :
    (retryWithBackoff op opts).invocations ≤ opts.maxRetries + 1 ∧
    (∀ i v, i ≤ opts.maxRetries → (∀ j, j < i → (op j).isOk = false) → op i = .ok v →
      (retryWithBackoff op opts).outcome = .ok v ∧
      (retryWithBackoff op opts).invocations = i + 1) ∧
    (retryWithBackoff op opts).delays =
      expectedBackoffDelays opts.backoffMultiplier opts.maxDelayMs opts.initialDelayMs
        ((retryWithBackoff op opts).invocations - 1) ∧
    ((∀ j, j ≤ opts.maxRetries → (op j).isOk = false) →
      (retryWithBackoff op opts).outcome = op opts.maxRetries) := by
  refine ⟨retryAux_invocations_le op _ _ _ _ _, ?_, retryAux_delays op _ _ _ _ _, ?_⟩
  · intro i v hi hfail hok
    exact retryAux_first_success op _ _ i opts.maxRetries opts.initialDelayMs 0 v hi
      (by simpa using hfail) (by simpa using hok)
  · intro hfail
    have := retryAux_all_fail op opts.backoffMultiplier opts.maxDelayMs opts.maxRetries
      opts.initialDelayMs 0 (by simpa using hfail)
    simpa using this

/-- The operation of the C6 witness: fails on attempts 0 and 1, succeeds on
attempt 2 with value 42. -/
def opFailTwice : ℕ → Except String ℕ :=
  fun j => if j < 2 then .error "boom" else .ok 42

/-- Witness for `c6_retry_with_backoff`: with `maxRetries = 3`, an operation
failing on its first two attempts and succeeding on the third returns the
success value after exactly 3 invocations, having slept 1000 ms then
2000 ms. -/
theorem c6_retry_with_backoff_witness :
    (retryWithBackoff opFailTwice ⟨3, 1000, 30000, 2⟩).outcome = .ok 42 ∧
    (retryWithBackoff opFailTwice ⟨3, 1000, 30000, 2⟩).invocations = 3 ∧
    (retryWithBackoff opFailTwice ⟨3, 1000, 30000, 2⟩).delays = [1000, 2000] := by
  have h := c6_retry_with_backoff opFailTwice ⟨3, 1000, 30000, 2⟩
  have h2 := h.2.1 2 42 (by norm_num)
    (by intro j hj; interval_cases j <;> simp [opFailTwice, Except.isOk, Except.toBool])
    (by simp [opFailTwice])
  refine ⟨h2.1, h2.2, ?_⟩
  rw [h.2.2.1, h2.2]
  norm_num [expectedBackoffDelays]

/-! ## Claim C8: fill loop behaviour and termination -/

/-- An adversarial environment: every book fetch returns a single level of
price 1 and size 0, and every fill-or-kill submission is accepted. -/
def zeroLevelEnv : OrderEnv := ⟨fun _ => [⟨1, 0⟩], fun _ => .success⟩

lemma zeroLevelEnv_no_progress :
    ∀ fuel fetchIdx submitIdx acc,
      fillLoop zeroLevelEnv true fuel 100 0 fetchIdx submitIdx acc = none := by
  intro fuel
  induction fuel with
  | zero => intro fi si acc; rfl
  | succ m ih =>
    intro fi si acc
    have hcond : (1 : ℚ) / 100 < 100 ∧ 0 < 3 := by norm_num
    have hmin : min (100 : ℚ) ((0 : ℚ) * 1) = 0 := by norm_num
    simp only [fillLoop, if_pos hcond, zeroLevelEnv, hmin, sub_zero]
    exact ih (fi + 1) (si + 1) (acc ++ [⟨true, 1, 0 / 1⟩])

/-- C8 (counterexample): against `zeroLevelEnv`, a `postOrder` fill loop
started with remaining notional 100 never terminates — each accepted
fill-or-kill order has fillable value `min(100, 0×1) = 0`, so the remaining
notional never decreases while every success resets the attempt counter. -/
theorem c8_counterexample :
    (∀ fuel, fillLoop zeroLevelEnv true fuel 100 0 1 0 [] = none) ∧
    ¬ fillLoopTerminates zeroLevelEnv true 100 0 1 0 [] := by
  refine ⟨fun fuel => zeroLevelEnv_no_progress fuel 1 0 [], ?_⟩
  rintro ⟨fuel, hf⟩
  rw [zeroLevelEnv_no_progress fuel 1 0 []] at hf
  simp at hf

/-- Termination measure for the fill loop: `eps`-sized chunks of remaining
notional, weighted against the attempt budget. -/
def fillMeasure (eps r : ℚ) (k : ℕ) : ℕ := 4 * ⌈r / eps⌉₊ + (3 - k)

lemma fillMeasure_success (eps r v : ℚ) (heps : 0 < eps) (hr : 1 / 100 < r)
    (hv : eps ≤ v) (k : ℕ) :
    fillMeasure eps (r - min r v) 0 < fillMeasure eps r k := by
  have hrpos : (0 : ℚ) < r := lt_trans (by norm_num) hr
  have hceil : 0 < ⌈r / eps⌉₊ := by
    rw [Nat.ceil_pos]
    exact div_pos hrpos heps
  rcases le_or_lt r v with hvr | hvr
  · rw [min_eq_left hvr, sub_self]
    have h0 : ⌈(0 : ℚ) / eps⌉₊ = 0 := by simp
    simp only [fillMeasure, h0]
    omega
  · rw [min_eq_right hvr.le]
    have hy : (0 : ℚ) ≤ (r - v) / eps := div_nonneg (by linarith) heps.le
    have hlt : (⌈(r - v) / eps⌉₊ : ℚ) < r / eps := by
      calc (⌈(r - v) / eps⌉₊ : ℚ) < (r - v) / eps + 1 := Nat.ceil_lt_add_one hy
        _ ≤ (r - eps) / eps + 1 := by gcongr
        _ = r / eps := by field_simp
    have hceil2 : ⌈(r - v) / eps⌉₊ < ⌈r / eps⌉₊ := Nat.lt_ceil.mpr hlt
    simp only [fillMeasure]
    omega

lemma fillLoop_isSome_of_measure_lt (env : OrderEnv) (isBuy : Bool) (eps : ℚ)
    (heps : 0 < eps)
    (hbook : ∀ i l rest, env.book i = l :: rest → eps ≤ l.size * l.price) :
    ∀ fuel r k fetchIdx submitIdx acc, fillMeasure eps r k < fuel →
      (fillLoop env isBuy fuel r k fetchIdx submitIdx acc).isSome := by
  intro fuel
  induction fuel with
  | zero => intro r k fi si acc h; exact absurd h (Nat.not_lt_zero _)
  | succ m ih =>
    intro r k fi si acc h
    by_cases hcond : 1 / 100 < r ∧ k < 3
    · rcases hb : env.book fi with _ | ⟨l, rest⟩
      · simp [fillLoop, if_pos hcond, hb]
      · have hv : eps ≤ l.size * l.price := hbook fi l rest hb
        have hdec_succ : fillMeasure eps (r - min r (l.size * l.price)) 0 < m := by
          have := fillMeasure_success eps r (l.size * l.price) heps hcond.1 hv k
          omega
        have hdec_fail : fillMeasure eps r (k + 1) < m := by
          have hk := hcond.2
          simp only [fillMeasure] at h ⊢
          omega
        rcases hsub : env.submit si with _ | _ | _
        · simp only [fillLoop, if_pos hcond, hb, hsub]
          exact ih _ _ _ _ _ hdec_succ
        · simp only [fillLoop, if_pos hcond, hb, hsub]
          exact ih _ _ _ _ _ hdec_fail
        · simp only [fillLoop, if_pos hcond, hb, hsub]
          split
          · simp
          · exact ih _ _ _ _ _ hdec_fail
    · simp only [fillLoop, if_neg hcond, Option.isSome_some]

/-- C8 (amended): the fill loop is bounded at 3 consecutive attempts and
exits when the remaining notional is at most $0.01 or the fetched book side
is empty; each accepted fill-or-kill order subtracts
`min(remaining, levelSize × levelPrice)` from the remaining notional and
resets the attempt counter, each rejection increments the counter without
raising, and a submission-level error is re-raised exactly when the attempt
budget is exhausted.  Termination, however, holds under the additional
assumption (which the claim's unqualified "for every behaviour" lacks, see
`c8_counterexample`) that the value of the best book level is bounded below
by some fixed `eps > 0`. -/
theorem c8_fill_loop_behaviour (env : OrderEnv) (isBuy : Bool) (eps : ℚ)
    (heps : 0 < eps)
    (hbook : ∀ i l rest, env.book i = l :: rest → eps ≤ l.size * l.price) :
    (∀ r k fetchIdx submitIdx acc,
      fillLoopTerminates env isBuy r k fetchIdx submitIdx acc) ∧
    (∀ fuel r k fetchIdx submitIdx acc, ¬(1 / 100 < r ∧ k < 3) →
      fillLoop env isBuy (fuel + 1) r k fetchIdx submitIdx acc = some (.ok (), acc)) ∧
    (∀ fuel r k fetchIdx submitIdx acc, 1 / 100 < r → k < 3 →
      env.book fetchIdx = [] →
      fillLoop env isBuy (fuel + 1) r k fetchIdx submitIdx acc = some (.ok (), acc)) ∧
    (∀ fuel r k fetchIdx submitIdx acc l rest, 1 / 100 < r → k < 3 →
      env.book fetchIdx = l :: rest →
      (env.submit submitIdx = .success →
        fillLoop env isBuy (fuel + 1) r k fetchIdx submitIdx acc =
          fillLoop env isBuy fuel (r - min r (l.size * l.price)) 0 (fetchIdx + 1)
            (submitIdx + 1)
            (acc ++ [⟨isBuy, l.price, min r (l.size * l.price) / l.price⟩])) ∧
      (env.submit submitIdx = .rejected →
        fillLoop env isBuy (fuel + 1) r k fetchIdx submitIdx acc =
          fillLoop env isBuy fuel r (k + 1) (fetchIdx + 1) (submitIdx + 1)
            (acc ++ [⟨isBuy, l.price, min r (l.size * l.price) / l.price⟩])) ∧
      (env.submit submitIdx = .error → 3 ≤ k + 1 →
        fillLoop env isBuy (fuel + 1) r k fetchIdx submitIdx acc =
          some (.error .submissionError,
            acc ++ [⟨isBuy, l.price, min r (l.size * l.price) / l.price⟩])) ∧
      (env.submit submitIdx = .error → ¬ 3 ≤ k + 1 →
        fillLoop env isBuy (fuel + 1) r k fetchIdx submitIdx acc =
          fillLoop env isBuy fuel r (k + 1) (fetchIdx + 1) (submitIdx + 1)
            (acc ++ [⟨isBuy, l.price, min r (l.size * l.price) / l.price⟩]))) := by
  refine ⟨?_, ?_, ?_, ?_⟩
  · intro r k fi si acc
    exact ⟨fillMeasure eps r k + 1,
      fillLoop_isSome_of_measure_lt env isBuy eps heps hbook _ r k fi si acc
        (Nat.lt_succ_self _)⟩
  · intro fuel r k fi si acc hcond
    simp only [fillLoop, if_neg hcond]
  · intro fuel r k fi si acc hr hk hb
    simp only [fillLoop, if_pos (And.intro hr hk), hb]
  · intro fuel r k fi si acc l rest hr hk hb
    refine ⟨?_, ?_, ?_, ?_⟩ <;> intro hsub
    · simp only [fillLoop, if_pos (And.intro hr hk), hb, hsub]
    · simp only [fillLoop, if_pos (And.intro hr hk), hb, hsub]
    · intro hk3
      simp only [fillLoop, if_pos (And.intro hr hk), hb, hsub, if_pos hk3]
    · intro hk3
      simp only [fillLoop, if_pos (And.intro hr hk), hb, hsub, if_neg hk3]

/-- Environment for the C8 witness: every book fetch serves one level of
price 1/2 and size 400 (level value 200), every submission is accepted. -/
def envC8 : OrderEnv := ⟨fun _ => [⟨1 / 2, 400⟩], fun _ => .success⟩

/-- Witness for `c8_fill_loop_behaviour`: against `envC8` (best-level value
always 200 ≥ eps = 200) the loop started with remaining 100 terminates. -/
theorem c8_fill_loop_behaviour_witness :
    fillLoopTerminates envC8 true 100 0 1 0 [] := by
  have h := c8_fill_loop_behaviour envC8 true 200 (by norm_num) ?_
  · exact h.1 100 0 1 0 []
  · intro i l rest hb
    rw [show envC8.book i = [⟨1 / 2, 400⟩] from rfl] at hb
    injection hb with hl hrest
    rw [← hl]
    norm_num

/-! ## Claim C9: partial completion is not signalled -/

lemma fillLoop_all_rejected (env : OrderEnv) (isBuy : Bool)
    (hsub : ∀ j, env.submit j = .rejected) :
    ∀ fuel k, k ≤ 3 → 3 < k + fuel → ∀ r fetchIdx submitIdx acc,
      ∃ tr, fillLoop env isBuy fuel r k fetchIdx submitIdx acc = some (.ok (), tr) := by
  intro fuel
  induction fuel with
  | zero => intro k hk h4; omega
  | succ m ih =>
    intro k hk h4 r fi si acc
    by_cases hcond : 1 / 100 < r ∧ k < 3
    · rcases hb : env.book fi with _ | ⟨l, rest⟩
      · exact ⟨acc, by simp only [fillLoop, if_pos hcond, hb]⟩
      · obtain ⟨tr, htr⟩ := ih (k + 1) (by omega) (by omega) r (fi + 1) (si + 1)
          (acc ++ [⟨isBuy, l.price, min r (l.size * l.price) / l.price⟩])
        exact ⟨tr, by simp only [fillLoop, if_pos hcond, hb, hsub si, htr]⟩
    · exact ⟨acc, by simp only [fillLoop, if_neg hcond]⟩

/-- C9: the fill loop returns plain success (`Except.ok ()` — the source
returns `void`, so no partial-completion indication can reach the caller)
both when the fetched book side is empty with notional still remaining, and
when consecutive rejections exhaust the 3-attempt budget, no matter how much
notional remains unfilled. -/
theorem c9_exhaustion_returns_normally (env : OrderEnv) (isBuy : Bool) :
    (∀ fuel r k fetchIdx submitIdx acc, 1 / 100 < r → k < 3 →
      env.book fetchIdx = [] →
      fillLoop env isBuy (fuel + 1) r k fetchIdx submitIdx acc = some (.ok (), acc)) ∧
    ((∀ j, env.submit j = .rejected) → ∀ r k fetchIdx submitIdx acc, k ≤ 3 →
      ∃ tr, fillLoop env isBuy (4 - k) r k fetchIdx submitIdx acc = some (.ok (), tr)) := by
  constructor
  · intro fuel r k fi si acc hr hk hb
    simp only [fillLoop, if_pos (And.intro hr hk), hb]
  · intro hsub r k fi si acc hk
    exact fillLoop_all_rejected env isBuy hsub (4 - k) k hk (by omega) r fi si acc

/-- Environment for the C9 witness: a live book whose submissions are all
rejected. -/
def envC9 : OrderEnv := ⟨fun _ => [⟨1 / 2, 400⟩], fun _ => .rejected⟩

/-- Environment for the C9 witness: an empty book. -/
def envC9empty : OrderEnv := ⟨fun _ => [], fun _ => .rejected⟩

/-- Witness for `c9_exhaustion_returns_normally`: with $100 still remaining,
an empty book returns `ok` at once, and three straight rejections return
`ok` as well — in both cases without any error. -/
theorem c9_exhaustion_returns_normally_witness :
    fillLoop envC9empty true 1 100 0 1 0 [] = some (.ok (), []) ∧
    ∃ tr, fillLoop envC9 true 4 100 0 1 0 [] = some (.ok (), tr) := by
  constructor
  · exact (c9_exhaustion_returns_normally envC9empty true).1 0 100 0 1 0 []
      (by norm_num) (by norm_num) rfl
  · exact (c9_exhaustion_returns_normally envC9 true).2 (fun j => rfl) 100 0 1 0 []
      (by norm_num)

/-! ## Claims C1, C7, C10: trade monitor -/

lemma processActivity_some {trader : String} {cut : ℤ} {st : MonitorState}
    {a : ActivityResponse} {st' : MonitorState} {sig : TradeSignal}
    (h : processActivity trader cut st a = some (st', sig)) :
    a.type = "TRADE" ∧
    cut ≤ normalizeTimestamp a.timestamp ∧
    a.transactionHash ∉ st.processedHashes ∧
    lookupTime st.lastFetchTime trader < normalizeTimestamp a.timestamp ∧
    st' = { processedHashes := addHash st.processedHashes a.transactionHash
            lastFetchTime := mapSet st.lastFetchTime trader
              (max (lookupTime st.lastFetchTime trader)
                (normalizeTimestamp a.timestamp)) } := by
  simp only [processActivity] at h
  split_ifs at h with h1 h2 h3 h4 <;>
    first
      | exact Option.noConfusion h
      | (simp only [Option.some_inj, Prod.mk.injEq] at h
         exact ⟨not_not.mp h1, le_of_not_lt h2, h3, lt_of_not_le h4, h.1.symm⟩)

lemma mem_addHash_of_mem {hashes : List String} {x h : String} (hx : x ∈ hashes) :
    x ∈ addHash hashes h := by
  unfold addHash
  split_ifs with hh
  · exact hx
  · exact List.mem_append_left _ hx

lemma self_mem_addHash (hashes : List String) (h : String) : h ∈ addHash hashes h := by
  unfold addHash
  split_ifs with hh
  · exact hh
  · exact List.mem_append_right _ (List.mem_singleton.mpr rfl)

lemma lookupTime_mapSet (m : List (String × ℤ)) (k : String) (v : ℤ) :
    lookupTime (mapSet m k v) k = v := by
  simp [lookupTime, mapSet, List.find?]

/-- Number of forwardings (consumer invocations) carrying transaction hash `h`. -/
def hashCount (h : String) (log : List Forwarded) : ℕ :=
  log.countP (fun fw => fw.activity.transactionHash == h)

lemma hashCount_append (h : String) (l1 l2 : List Forwarded) :
    hashCount h (l1 ++ l2) = hashCount h l1 + hashCount h l2 :=
  List.countP_append _ _ _

lemma fetch_hash_mono (consumerOk : ℕ → Bool) (tr : String) (cut : ℤ) :
    ∀ acts st cnt x, x ∈ st.processedHashes →
      x ∈ (fetchTraderActivities consumerOk tr cut st cnt acts).st.processedHashes := by
  intro acts
  induction acts with
  | nil => intro st cnt x hx; exact hx
  | cons a rest ih =>
    intro st cnt x hx
    cases hp : processActivity tr cut st a with
    | none => simpa [fetchTraderActivities, hp] using ih st cnt x hx
    | some pr =>
      obtain ⟨st', sig⟩ := pr
      have hmem : x ∈ st'.processedHashes := by
        rw [(processActivity_some hp).2.2.2.2]
        exact mem_addHash_of_mem hx
      by_cases hc : consumerOk cnt
      · simpa [fetchTraderActivities, hp, hc] using ih st' (cnt + 1) x hmem
      · simpa [fetchTraderActivities, hp, hc] using hmem

lemma fetch_dedup (consumerOk : ℕ → Bool) (tr : String) (cut : ℤ) (h : String) :
    ∀ acts st cnt,
      (h ∈ st.processedHashes →
        hashCount h (fetchTraderActivities consumerOk tr cut st cnt acts).log = 0 ∧
        h ∈ (fetchTraderActivities consumerOk tr cut st cnt acts).st.processedHashes) ∧
      hashCount h (fetchTraderActivities consumerOk tr cut st cnt acts).log ≤ 1 ∧
      (1 ≤ hashCount h (fetchTraderActivities consumerOk tr cut st cnt acts).log →
        h ∈ (fetchTraderActivities consumerOk tr cut st cnt acts).st.processedHashes) := by
  intro acts
  induction acts with
  | nil =>
    intro st cnt
    exact ⟨fun hm => ⟨rfl, hm⟩, by simp [fetchTraderActivities, hashCount], by
      intro hc; simp [fetchTraderActivities, hashCount] at hc⟩
  | cons a rest ih =>
    intro st cnt
    cases hp : processActivity tr cut st a with
    | none => simpa only [fetchTraderActivities, hp] using ih st cnt
    | some pr =>
      obtain ⟨st', sig⟩ := pr
      have hinv := processActivity_some hp
      by_cases hc : consumerOk cnt
      · simp only [fetchTraderActivities, hp, hc, if_true]
        by_cases hah : a.transactionHash = h
        · -- forwarded activity carries h; h was not in the cache before
          have hnotmem : h ∉ st.processedHashes := hah ▸ hinv.2.2.1
          have hmem' : h ∈ st'.processedHashes := by
            rw [hinv.2.2.2.2]
            exact hah ▸ self_mem_addHash st.processedHashes a.transactionHash
          have hcount0 := (ih st' (cnt + 1)).1 hmem'
          refine ⟨fun hm => absurd hm hnotmem, ?_, fun _ => ?_⟩
          · simp only [hashCount, List.countP_cons, hah, beq_self_eq_true, if_true]
            have : hashCount h (fetchTraderActivities consumerOk tr cut st' (cnt + 1) rest).log = 0 :=
              hcount0.1
            simp only [hashCount] at this
            omega
          · exact hcount0.2
        · -- forwarded activity carries a different hash
          have hpred : (a.transactionHash == h) = false := by
            simp [hah]
          have hcons : hashCount h
              (⟨tr, cut, a, sig⟩ ::
                (fetchTraderActivities consumerOk tr cut st' (cnt + 1) rest).log) =
              hashCount h (fetchTraderActivities consumerOk tr cut st' (cnt + 1) rest).log := by
            simp [hashCount, List.countP_cons, hpred]
          refine ⟨fun hm => ?_, ?_, ?_⟩
          · have hmem' : h ∈ st'.processedHashes := by
              rw [hinv.2.2.2.2]
              exact mem_addHash_of_mem hm
            have := (ih st' (cnt + 1)).1 hmem'
            exact ⟨by rw [hcons]; exact this.1, this.2⟩
          · rw [hcons]; exact (ih st' (cnt + 1)).2.1
          · rw [hcons]; exact (ih st' (cnt + 1)).2.2
      · simp only [fetchTraderActivities, hp, hc, if_false]
        by_cases hah : a.transactionHash = h
        · have hnotmem : h ∉ st.processedHashes := hah ▸ hinv.2.2.1
          have hmem' : h ∈ st'.processedHashes := by
            rw [hinv.2.2.2.2]
            exact hah ▸ self_mem_addHash st.processedHashes a.transactionHash
          exact ⟨fun hm => absurd hm hnotmem, by simp [hashCount, hah], fun _ => hmem'⟩
        · have hpred : (a.transactionHash == h) = false := by simp [hah]
          refine ⟨fun hm => ⟨by simp [hashCount, hpred], ?_⟩,
            by simp [hashCount, hpred], fun hcnt => ?_⟩
          · rw [hinv.2.2.2.2]
            exact mem_addHash_of_mem hm
          · simp [hashCount, hpred] at hcnt

lemma runMonitor_dedup (consumerOk : ℕ → Bool) (h : String) :
    ∀ steps st cnt, residentDuring h consumerOk st cnt steps = true →
      (h ∈ st.processedHashes →
        hashCount h (runMonitor consumerOk st cnt steps).log = 0 ∧
        h ∈ (runMonitor consumerOk st cnt steps).st.processedHashes) ∧
      hashCount h (runMonitor consumerOk st cnt steps).log ≤ 1 ∧
      (1 ≤ hashCount h (runMonitor consumerOk st cnt steps).log →
        h ∈ (runMonitor consumerOk st cnt steps).st.processedHashes) := by
  intro steps
  induction steps with
  | nil =>
    intro st cnt _
    exact ⟨fun hm => ⟨rfl, hm⟩, by simp [runMonitor, hashCount], by
      intro hc; simp [runMonitor, hashCount] at hc⟩
  | cons step rest ih =>
    intro st cnt hres
    cases step with
    | fetch tr cut acts =>
      simp only [residentDuring] at hres
      simp only [runMonitor]
      have hF := fetch_dedup consumerOk tr cut h acts st cnt
      have hR := ih (fetchTraderActivities consumerOk tr cut st cnt acts).st
        (fetchTraderActivities consumerOk tr cut st cnt acts).cnt hres
      rw [hashCount_append]
      refine ⟨fun hm => ?_, ?_, fun hcnt => ?_⟩
      · have hf := hF.1 hm
        have hr := hR.1 hf.2
        exact ⟨by omega, hr.2⟩
      · rcases Nat.eq_zero_or_pos
            (hashCount h (fetchTraderActivities consumerOk tr cut st cnt acts).log) with
          hz | hpos
        · have := hR.2.1
          omega
        · have hmemf := hF.2.2 hpos
          have := (hR.1 hmemf).1
          have := hF.2.1
          omega
      · rcases Nat.eq_zero_or_pos
            (hashCount h
              (runMonitor consumerOk (fetchTraderActivities consumerOk tr cut st cnt acts).st
                (fetchTraderActivities consumerOk tr cut st cnt acts).cnt rest).log) with
          hz | hpos
        · have hposf : 1 ≤ hashCount h (fetchTraderActivities consumerOk tr cut st cnt acts).log := by
            omega
          exact (hR.1 (hF.2.2 hposf)).2
        · exact hR.2.2 hpos
    | cleanup =>
      simp only [residentDuring, Bool.and_eq_true, decide_eq_true_eq] at hres
      simp only [runMonitor]
      have hR := ih ⟨cleanupHashCache st.processedHashes, st.lastFetchTime⟩ cnt hres.2
      exact ⟨fun hm => hR.1 (hres.1 hm), hR.2.1, hR.2.2⟩

/-- C1: over any monitor run (any interleaving of per-trader fetches across
any number of ticks, with cleanups in between) during which the transaction
hash `h` stays resident in the dedup cache, activities bearing `h` cause at
most one consumer invocation; if `h` was already cached at the start there
is none at all; and as soon as one forwarding happened, `h` is in the cache
at the end of the run (the first forwarding put it there). -/
theorem c1_dedup_at_most_once (h : String) (consumerOk : ℕ → Bool)
    (st : MonitorState) (cnt : ℕ) (steps : List MonitorStep)
    (hres : residentDuring h consumerOk st cnt steps = true) :
    hashCount h (runMonitor consumerOk st cnt steps).log ≤ 1 ∧
    (h ∈ st.processedHashes →
      hashCount h (runMonitor consumerOk st cnt steps).log = 0) ∧
    (1 ≤ hashCount h (runMonitor consumerOk st cnt steps).log →
      h ∈ (runMonitor consumerOk st cnt steps).st.processedHashes) := by
  have hmain := runMonitor_dedup consumerOk h steps st cnt hres
  exact ⟨hmain.2.1, fun hm => (hmain.1 hm).1, hmain.2.2⟩

/-- The activity used by the C1 and C7 witnesses. -/
def actW : ActivityResponse :=
  ⟨"TRADE", .epochSeconds 100, "mkt", "asset", 5, 10, 1 / 2, "buy", 0, "0xabc"⟩

/-- Witness for `c1_dedup_at_most_once`: the same activity served in two
ticks of one trader (with a cleanup in between) is forwarded exactly once. -/
theorem c1_dedup_at_most_once_witness :
    hashCount "0xabc"
      (runMonitor (fun _ => true) ⟨[], []⟩ 0
        [.fetch "trader1" 50 [actW], .cleanup, .fetch "trader1" 40 [actW]]).log ≤ 1 := by
  exact (c1_dedup_at_most_once "0xabc" (fun _ => true) ⟨[], []⟩ 0
    [.fetch "trader1" 50 [actW], .cleanup, .fetch "trader1" 40 [actW]] (by decide)).1

lemma fetch_window (consumerOk : ℕ → Bool) (tr : String) (cut : ℤ) :
    ∀ acts st cnt,
      ∀ fw ∈ (fetchTraderActivities consumerOk tr cut st cnt acts).log,
        fw.cutoffTime ≤ normalizeTimestamp fw.activity.timestamp := by
  intro acts
  induction acts with
  | nil => intro st cnt fw hfw; simp [fetchTraderActivities] at hfw
  | cons a rest ih =>
    intro st cnt fw hfw
    cases hp : processActivity tr cut st a with
    | none =>
      rw [fetchTraderActivities, hp] at hfw
      exact ih st cnt fw hfw
    | some pr =>
      obtain ⟨st', sig⟩ := pr
      have hinv := processActivity_some hp
      by_cases hc : consumerOk cnt
      · rw [fetchTraderActivities, hp] at hfw
        simp only [hc, if_true, List.mem_cons] at hfw
        rcases hfw with rfl | hfw
        · exact hinv.2.1
        · exact ih st' (cnt + 1) fw hfw
      · rw [fetchTraderActivities, hp] at hfw
        simp [hc] at hfw
        subst hfw
        exact hinv.2.1

/-- C7: over any monitor run, every forwarded activity's normalized
epoch-seconds timestamp is at least the window cutoff
(`now − aggregationWindowSeconds`) of the tick that forwarded it — an
activity older than the cutoff is never forwarded to the consumer. -/
theorem c7_window_filter (consumerOk : ℕ → Bool) (st : MonitorState) (cnt : ℕ)
    (steps : List MonitorStep) :
    ((runMonitor consumerOk st cnt steps).log.all
      (fun fw => decide (fw.cutoffTime ≤ normalizeTimestamp fw.activity.timestamp))) = true := by
  rw [List.all_eq_true]
  intro fw hfw
  rw [decide_eq_true_eq]
  induction steps generalizing st cnt with
  | nil => simp [runMonitor] at hfw
  | cons step rest ih =>
    cases step with
    | fetch tr cut acts =>
      rw [runMonitor] at hfw
      simp only [List.mem_append] at hfw
      rcases hfw with hfw | hfw
      · exact fetch_window consumerOk tr cut acts st cnt fw hfw
      · exact ih _ _ hfw
    | cleanup =>
      rw [runMonitor] at hfw
      exact ih _ _ hfw

lemma fetch_append (consumerOk : ℕ → Bool) (tr : String) (cut : ℤ) :
    ∀ (l1 : List ActivityResponse) (st : MonitorState) (cnt : ℕ),
      (fetchTraderActivities consumerOk tr cut st cnt l1).aborted = false →
      ∀ l2, fetchTraderActivities consumerOk tr cut st cnt (l1 ++ l2) =
        ⟨(fetchTraderActivities consumerOk tr cut
            (fetchTraderActivities consumerOk tr cut st cnt l1).st
            (fetchTraderActivities consumerOk tr cut st cnt l1).cnt l2).st,
          (fetchTraderActivities consumerOk tr cut
            (fetchTraderActivities consumerOk tr cut st cnt l1).st
            (fetchTraderActivities consumerOk tr cut st cnt l1).cnt l2).cnt,
          (fetchTraderActivities consumerOk tr cut st cnt l1).log ++
            (fetchTraderActivities consumerOk tr cut
              (fetchTraderActivities consumerOk tr cut st cnt l1).st
              (fetchTraderActivities consumerOk tr cut st cnt l1).cnt l2).log,
          (fetchTraderActivities consumerOk tr cut
            (fetchTraderActivities consumerOk tr cut st cnt l1).st
            (fetchTraderActivities consumerOk tr cut st cnt l1).cnt l2).aborted⟩ := by
  intro l1
  induction l1 with
  | nil => intro st cnt _ l2; simp [fetchTraderActivities]
  | cons a rest ih =>
    intro st cnt hab l2
    cases hp : processActivity tr cut st a with
    | none =>
      rw [fetchTraderActivities, hp] at hab
      rw [List.cons_append, fetchTraderActivities, hp, ih st cnt hab l2,
        fetchTraderActivities, hp]
    | some pr =>
      obtain ⟨st', sig⟩ := pr
      by_cases hc : consumerOk cnt
      · rw [fetchTraderActivities, hp] at hab
        simp only [hc, if_true] at hab
        rw [List.cons_append, fetchTraderActivities, hp]
        simp only [hc, if_true]
        rw [ih st' (cnt + 1) hab l2, fetchTraderActivities, hp]
        simp only [hc, if_true, List.cons_append]
      · rw [fetchTraderActivities, hp] at hab
        simp [hc] at hab

/-- C10: if the consumer callback rejects while processing one activity `a`
(and the fetch had not aborted earlier), then the whole fetch stops right
there: the final state is the one in which `a`'s transaction hash was
already recorded and the trader's watermark already advanced to `a`'s time
(both happen before the `await`), `a`'s forwarding is the last entry of the
log, the remainder of the activity list is abandoned for this tick, and
re-encountering `a` against the resulting state is skipped — the activity
is never forwarded again even though its consumer invocation never
completed. -/
theorem c10_consumer_failure (consumerOk : ℕ → Bool) (tr : String) (cut : ℤ)
    (st st2 : MonitorState) (cnt : ℕ) (pre post : List ActivityResponse)
    (a : ActivityResponse) (sig : TradeSignal)
    (h1 : (fetchTraderActivities consumerOk tr cut st cnt pre).aborted = false)
    (h3 : processActivity tr cut (fetchTraderActivities consumerOk tr cut st cnt pre).st a =
      some (st2, sig))
    (h4 : consumerOk (fetchTraderActivities consumerOk tr cut st cnt pre).cnt = false) :
    fetchTraderActivities consumerOk tr cut st cnt (pre ++ a :: post) =
      ⟨st2, (fetchTraderActivities consumerOk tr cut st cnt pre).cnt + 1,
        (fetchTraderActivities consumerOk tr cut st cnt pre).log ++ [⟨tr, cut, a, sig⟩],
        true⟩ ∧
    a.transactionHash ∈ st2.processedHashes ∧
    normalizeTimestamp a.timestamp ≤ lookupTime st2.lastFetchTime tr ∧
    processActivity tr cut st2 a = none := by
  have hinv := processActivity_some h3
  have hhash : a.transactionHash ∈ st2.processedHashes := by
    rw [hinv.2.2.2.2]
    exact self_mem_addHash _ _
  refine ⟨?_, hhash, ?_, ?_⟩
  · rw [fetch_append consumerOk tr cut pre st cnt h1 (a :: post),
      fetchTraderActivities, h3]
    simp only [h4, Bool.false_eq_true, if_false]
  · rw [hinv.2.2.2.2]
    simp only [lookupTime_mapSet]
    exact le_max_right _ _
  · rw [processActivity, if_neg (not_not.mpr hinv.1)]
    rw [if_neg (not_lt_of_le hinv.2.1), if_pos hhash]

/-- The activity of the C10 witness. -/
def actX : ActivityResponse :=
  ⟨"TRADE", .epochSeconds 100, "mkt", "asset", 5, 10, 1 / 2, "sell", 1, "0xdead"⟩

/-- Witness for `c10_consumer_failure`: a consumer that always rejects
processes a two-element activity list for one trader; the first activity is
forwarded once, its hash and watermark stick, and the second copy is
abandoned with the rest of the list. -/
theorem c10_consumer_failure_witness :
    fetchTraderActivities (fun _ => false) "trader1" 50 ⟨[], []⟩ 0 ([] ++ actX :: [actX]) =
      ⟨⟨["0xdead"], [("trader1", 100)]⟩, 1,
        [] ++ [⟨"trader1", 50, actX,
          ⟨"trader1", "mkt", "NO", String.toUpper "sell", 10, 1 / 2, 100000⟩⟩], true⟩ ∧
    actX.transactionHash ∈ (⟨["0xdead"], [("trader1", 100)]⟩ : MonitorState).processedHashes ∧
    normalizeTimestamp actX.timestamp ≤
      lookupTime (⟨["0xdead"], [("trader1", 100)]⟩ : MonitorState).lastFetchTime "trader1" ∧
    processActivity "trader1" 50 ⟨["0xdead"], [("trader1", 100)]⟩ actX = none := by
  exact c10_consumer_failure (fun _ => false) "trader1" 50 ⟨[], []⟩
    ⟨["0xdead"], [("trader1", 100)]⟩ 0 [] [actX] actX
    ⟨"trader1", "mkt", "NO", String.toUpper "sell", 10, 1 / 2, 100000⟩ rfl rfl rfl
